import Mathlib

/-!
Shallow embedding of the streaming-transcript stitching core of the
`sbc-audio-transcription` repository (`transcribe.py` and `transcribe-halo.py`,
both at top level and under `raspberry-pi-5/`; the stitching functions are
identical across the variants).

Python strings are modelled as `List Char`.  The Python primitives used by the
code are modelled by:
  * `str.split()`                 → `pyWords`
  * `str.strip()`                 → `pyStrip`
  * `str.lower()`                 → `pyLower` (ASCII case folding)
  * `' '.join(ws)`                → `unwords`
  * `re.sub(r'\s+', ' ', text)`   → `collapseWs`
The float comparison `similarity > 0.7` in `is_repetition` is modelled exactly
as the rational comparison `10 * matching > 7 * wordCount`.
-/

namespace SBC

/-- ASCII whitespace, as recognized by Python's `str.split` / `str.strip` /
regex `\s` on the ASCII plane. -/
def isPySpace (c : Char) : Bool :=
  c = ' ' || c = '\t' || c = '\n' || c = '\r' || c = '\x0b' || c = '\x0c'

/-- Python `text.split()` (no separator argument): split on maximal whitespace
runs; no empty pieces are produced. -/
def pyWords (l : List Char) : List (List Char) :=
  (l.splitOnP isPySpace).filter (fun w => !w.isEmpty)

/-- Python `' '.join(ws)`. -/
def unwords : List (List Char) → List Char
  | [] => []
  | [w] => w
  | w :: ws => w ++ ' ' :: unwords ws

/-- Python `text.strip()`: remove leading and trailing whitespace. -/
def pyStrip (l : List Char) : List Char :=
  ((l.dropWhile isPySpace).reverse.dropWhile isPySpace).reverse

/-- Python `text.lower()` (ASCII case folding, which covers this code base). -/
def pyLower (l : List Char) : List Char :=
  l.map Char.toLower

/-- `re.sub(r'\s+', ' ', text)`: every maximal whitespace run becomes a single
space character. -/
def collapseWs : List Char → List Char
  | [] => []
  | [c] => if isPySpace c then [' '] else [c]
  | c₁ :: c₂ :: cs =>
    if isPySpace c₁ then
      if isPySpace c₂ then collapseWs (c₂ :: cs)
      else ' ' :: collapseWs (c₂ :: cs)
    else c₁ :: collapseWs (c₂ :: cs)

/-- `normalize_whitespace(text)` from `transcribe.py`: collapse whitespace runs
to single spaces, then strip. -/
def normalize_whitespace (text : List Char) : List Char :=
  pyStrip (collapseWs text)

/-- `is_repetition(new_text, previous_text, threshold=0.7)` from
`transcribe.py`.  `similarity > 0.7` is modelled as the exact rational
comparison `10 * matching_words > 7 * len(new_words)`. -/
def is_repetition (new_text previous_text : List Char) : Bool :=
  if previous_text.isEmpty || new_text.isEmpty then false
  else
    let new_words := pyWords (pyLower new_text)
    let prev_words := pyWords (pyLower previous_text)
    if new_words.length < 3 then false
    else
      let check_length := min prev_words.length 10
      let prev_end := unwords (prev_words.drop (prev_words.length - check_length))
      let matching_words :=
        (new_words.filter (fun w => decide (w ∈ pyWords prev_end))).length
      decide (10 * matching_words > 7 * new_words.length)

/-- The `for i in range(max_check, 0, -1)` search of `remove_overlap`:
largest `i ≤ maxCheck` (searched downward, first hit wins) with
`previous_words[-i:] == new_words[:i]`, else `0`. -/
def findOverlapCount (previous_words new_words : List (List Char)) : Nat → Nat
  | 0 => 0
  | i + 1 =>
    if previous_words.drop (previous_words.length - (i + 1)) = new_words.take (i + 1) then
      i + 1
    else
      findOverlapCount previous_words new_words i

/-- `remove_overlap(new_text, previous_words, overlap_words)` from
`transcribe.py`. -/
def remove_overlap (new_text : List Char) (previous_words : List (List Char))
    (overlap_words : Nat) : List Char :=
  if previous_words.isEmpty || new_text.isEmpty then new_text
  else
    let new_words := pyWords new_text
    let max_check := min (min new_words.length previous_words.length) overlap_words
    let overlap_count := findOverlapCount previous_words new_words max_check
    let new_words := if overlap_count > 0 then new_words.drop overlap_count else new_words
    unwords new_words

/-- The set `{'.', '!', '?'}` of `ContextTracker.process_transcription`. -/
def terminal_punctuation : List Char :=
  ['.', '!', '?']

/-- `ContextTracker` from `transcribe-halo.py` (top level): the single field
`incomplete_buffer`, initialised to the empty string. -/
structure ContextTracker where
  incomplete_buffer : List Char
deriving DecidableEq

/-- A fresh (or `reset`) `ContextTracker`. -/
def ContextTracker.init : ContextTracker :=
  ⟨[]⟩

/-- `ContextTracker.process_transcription(self, text)` from `transcribe-halo.py`.
Returns `((display_text, is_continuation), tracker after the call)`. -/
def process_transcription (tr : ContextTracker) (text : List Char) :
    (List Char × Bool) × ContextTracker :=
  if text.isEmpty then (([], false), tr)
  else
    let is_continuation := !tr.incomplete_buffer.isEmpty
    let full_text :=
      if tr.incomplete_buffer.isEmpty then text
      else tr.incomplete_buffer ++ ' ' :: text
    let stripped := pyStrip text
    let has_terminal :=
      !stripped.isEmpty &&
        (match stripped.getLast? with
         | some c => terminal_punctuation.contains c
         | none => false)
    if has_terminal then
      ((full_text, is_continuation), ⟨[]⟩)
    else
      ((full_text ++ ['.', '.', '.'], is_continuation), ⟨full_text⟩)

/-- Fold `process_transcription` over a list of chunk texts, keeping only the
tracker state. -/
def runTracker (tr : ContextTracker) : List (List Char) → ContextTracker
  | [] => tr
  | t :: ts => runTracker (process_transcription tr t).2 ts

/-- The configuration fields of `run_transcription` that the stitching loop
reads (defaults: `min_words = 1`, `overlap_words = 5`,
`max_context_chunks = 4`). -/
structure TranscribeConfig where
  min_words : Nat
  overlap_words : Nat
  max_context_chunks : Nat
deriving DecidableEq

/-- The mutable stitching state of the `run_transcription` loop in
`transcribe.py`: `last_text`, `last_words`, `context_buffer`. -/
structure StitcherState where
  last_text : List Char
  last_words : List (List Char)
  context_buffer : List (List Char)
deriving DecidableEq

/-- `context_buffer.append(text)` followed by
`if len(context_buffer) > max_context_chunks: context_buffer.pop(0)`. -/
def pushContext (max_context_chunks : Nat) (buf : List (List Char))
    (text : List Char) : List (List Char) :=
  let buf := buf ++ [text]
  if buf.length > max_context_chunks then buf.drop 1 else buf

/-- One iteration of the validation/stitching section of `run_transcription`
in `transcribe.py` (from `if text:` onward), on the already-normalized chunk
text.  Returns the printed text (`none` = no output) and the updated state. -/
def accept (config : TranscribeConfig) (st : StitcherState) (text : List Char) :
    Option (List Char) × StitcherState :=
  if text.isEmpty then (none, st)
  else
    let word_count := (pyWords text).length
    if word_count < config.min_words then (none, st)
    else if is_repetition text st.last_text then (none, st)
    else
      let deduplicated_text := remove_overlap text st.last_words config.overlap_words
      if (pyStrip deduplicated_text).isEmpty then (none, st)
      else
        (some deduplicated_text,
          { last_text := text
            last_words := pyWords text
            context_buffer := pushContext config.max_context_chunks st.context_buffer text })

/-- Fold `accept` over a list of chunk texts, keeping only the state. -/
def runChunks (config : TranscribeConfig) (st : StitcherState) :
    List (List Char) → StitcherState
  | [] => st
  | t :: ts => runChunks config (accept config st t).2 ts

/-- The subsequence of chunk texts which `accept` accepts (produces output
for), each judged against the state current when it arrives. -/
def acceptedTexts (config : TranscribeConfig) (st : StitcherState) :
    List (List Char) → List (List Char)
  | [] => []
  | t :: ts =>
    if (accept config st t).1.isSome then
      t :: acceptedTexts config (accept config st t).2 ts
    else
      acceptedTexts config (accept config st t).2 ts

/-- Spec-side predicate: the last `i` words of `previous_words` equal,
token-for-token, the first `i` words of `new_words`. -/
def overlapMatchAt (previous_words new_words : List (List Char)) (i : Nat) : Prop :=
  previous_words.drop (previous_words.length - i) = new_words.take i

/-- Spec-side predicate: `count` is the largest `i` in `[1, maxCheck]` at which
the suffix/concluding words of `previous_words` match the leading words of
`new_words`, or `0` when no such `i` exists. -/
def isGreatestOverlap (previous_words new_words : List (List Char))
    (maxCheck count : Nat) : Prop :=
  (count = 0 ∧ ∀ i, 1 ≤ i → i ≤ maxCheck → ¬ overlapMatchAt previous_words new_words i) ∨
  (1 ≤ count ∧ count ≤ maxCheck ∧ overlapMatchAt previous_words new_words count ∧
    ∀ i, count < i → i ≤ maxCheck → ¬ overlapMatchAt previous_words new_words i)

/-- Spec-side predicate: the (possibly empty) text ends in terminal
punctuation. -/
def endsTerminal (l : List Char) : Bool :=
  match l.getLast? with
  | some c => terminal_punctuation.contains c
  | none => false

/-- Proof-side invariant characterizing the image of `collapseWs`: no two
adjacent whitespace characters, and every whitespace character is a plain
space. -/
def WsCollapsed (l : List Char) : Prop :=
  List.Chain' (fun a b => ¬(isPySpace a = true ∧ isPySpace b = true)) l ∧
  ∀ c ∈ l, isPySpace c = true → c = ' '

/-! ## Helper lemmas about the accept loop -/

theorem accept_cases (config : TranscribeConfig) (st : StitcherState) (text : List Char) :
    ((accept config st text).1 = none ∧ (accept config st text).2 = st) ∨
    ((accept config st text).1
        = some (remove_overlap text st.last_words config.overlap_words) ∧
      (accept config st text).2.last_text = text ∧
      (accept config st text).2.last_words = pyWords text ∧
      (accept config st text).2.context_buffer
        = pushContext config.max_context_chunks st.context_buffer text) := by
  by_cases h0 : text.isEmpty
  · exact Or.inl (by simp [accept, h0])
  · by_cases h1 : (pyWords text).length < config.min_words
    · exact Or.inl (by simp [accept, h0, h1])
    · by_cases h2 : is_repetition text st.last_text
      · exact Or.inl (by simp [accept, h0, h1, h2])
      · by_cases h3 : (pyStrip (remove_overlap text st.last_words config.overlap_words)).isEmpty
        · exact Or.inl (by simp [accept, h0, h1, h2, h3])
        · exact Or.inr (by simp [accept, h0, h1, h2, h3])

theorem accept_none_state (config : TranscribeConfig) (st : StitcherState) (text : List Char)
    (h : (accept config st text).1 = none) : (accept config st text).2 = st := by
  rcases accept_cases config st text with ⟨_, h2⟩ | ⟨h1, _⟩
  · exact h2
  · rw [h] at h1; exact absurd h1 (by simp)

theorem getLast?_cons_getD (a d : List Char) (l : List (List Char)) :
    ((a :: l).getLast?).getD d = (l.getLast?).getD a := by
  cases l with
  | nil => rfl
  | cons b l =>
    rw [List.getLast?_cons_cons]
    obtain ⟨x, hx⟩ := Option.isSome_iff_exists.mp (List.getLast?_isSome.mpr (List.cons_ne_nil b l))
    rw [hx]; rfl

theorem runChunks_last_text (config : TranscribeConfig) :
    ∀ (ts : List (List Char)) (st : StitcherState),
      (runChunks config st ts).last_text
        = ((acceptedTexts config st ts).getLast?).getD st.last_text := by
  intro ts
  induction ts with
  | nil => intro st; rfl
  | cons t ts ih =>
    intro st
    rcases accept_cases config st t with ⟨h1, h2⟩ | ⟨h1, h2, _, _⟩
    · have hs : (accept config st t).1.isSome = false := by rw [h1]; rfl
      rw [runChunks, acceptedTexts, hs]
      simp only [Bool.false_eq_true, if_false]
      rw [ih, h2]
    · have hs : (accept config st t).1.isSome = true := by rw [h1]; rfl
      rw [runChunks, acceptedTexts, hs]
      simp only [if_true]
      rw [ih, getLast?_cons_getD, h2]

/-! ## Claims about the accept loop -/

/-- Claim C6 (confirmed): a chunk text that is empty, or whose word count is
below `min_words`, produces no output and leaves the whole stitching state
unchanged. -/
theorem claim6_invalid_chunk_no_output (config : TranscribeConfig) (st : StitcherState)
    (text : List Char) (h : text = [] ∨ (pyWords text).length < config.min_words) :
    accept config st text = (none, st) := by
  rcases h with h | h
  · subst h; simp [accept]
  · by_cases h0 : text.isEmpty
    · rw [List.isEmpty_iff] at h0; subst h0; simp [accept]
    · simp [accept, h0, h]

theorem claim6_witness :
    accept ⟨1, 5, 4⟩ ⟨[], [], []⟩ [] = (none, (⟨[], [], []⟩ : StitcherState)) ∧
    accept ⟨2, 5, 4⟩ ⟨[], [], []⟩ ("noise").data = (none, (⟨[], [], []⟩ : StitcherState)) :=
  ⟨claim6_invalid_chunk_no_output ⟨1, 5, 4⟩ ⟨[], [], []⟩ [] (Or.inl rfl),
   claim6_invalid_chunk_no_output ⟨2, 5, 4⟩ ⟨[], [], []⟩ (("noise").data) (Or.inr (by decide))⟩

/-- Claim C7 (confirmed): a chunk classified as a repetition of
`last_text` produces no output and leaves the whole stitching state
unchanged. -/
theorem claim7_repetition_discards_chunk (config : TranscribeConfig) (st : StitcherState)
    (text : List Char) (h0 : text ≠ [])
    (h1 : ¬ (pyWords text).length < config.min_words)
    (h2 : is_repetition text st.last_text = true) :
    accept config st text = (none, st) := by
  have h0' : text.isEmpty = false := by simp [List.isEmpty_iff, h0]
  simp [accept, h0', h1, h2]

theorem claim7_witness :
    is_repetition ("the lazy dog").data
        ("the quick brown fox jumps over the lazy dog").data = true ∧
    accept ⟨1, 5, 4⟩
        ⟨("the quick brown fox jumps over the lazy dog").data,
         pyWords (("the quick brown fox jumps over the lazy dog").data), []⟩
        (("the lazy dog").data)
      = (none,
         ⟨("the quick brown fox jumps over the lazy dog").data,
          pyWords (("the quick brown fox jumps over the lazy dog").data), []⟩) :=
  ⟨by decide,
   claim7_repetition_discards_chunk ⟨1, 5, 4⟩
     ⟨("the quick brown fox jumps over the lazy dog").data,
      pyWords (("the quick brown fox jumps over the lazy dog").data), []⟩
     (("the lazy dog").data) (by decide) (by decide) (by decide)⟩

/-- Claim C4 (confirmed): a chunk whose trimmed result after `remove_overlap`
is empty or whitespace-only produces no output and leaves `last_text`,
`last_words` and `context_buffer` unchanged; state updates happen exactly on
the branch where the trimmed result is non-empty, where they do occur. -/
theorem claim4_all_overlap_frame (config : TranscribeConfig) (st : StitcherState)
    (text : List Char) (h0 : text ≠ [])
    (h1 : ¬ (pyWords text).length < config.min_words)
    (h2 : is_repetition text st.last_text = false) :
    (pyStrip (remove_overlap text st.last_words config.overlap_words) = [] →
       accept config st text = (none, st)) ∧
    (pyStrip (remove_overlap text st.last_words config.overlap_words) ≠ [] →
       (accept config st text).1
           = some (remove_overlap text st.last_words config.overlap_words) ∧
       (accept config st text).2.last_text = text ∧
       (accept config st text).2.last_words = pyWords text ∧
       (accept config st text).2.context_buffer
           = pushContext config.max_context_chunks st.context_buffer text) := by
  have h0' : text.isEmpty = false := by simp [List.isEmpty_iff, h0]
  constructor
  · intro h3
    have h3' : (pyStrip (remove_overlap text st.last_words config.overlap_words)).isEmpty = true := by
      simp [List.isEmpty_iff, h3]
    simp [accept, h0', h1, h2, h3']
  · intro h3
    have h3' : (pyStrip (remove_overlap text st.last_words config.overlap_words)).isEmpty = false := by
      simp [List.isEmpty_iff, h3]
    simp [accept, h0', h1, h2, h3']

theorem claim4_witness :
    accept ⟨1, 5, 4⟩ ⟨("hello world").data, [("hello").data, ("world").data], []⟩
        (("hello world").data)
      = (none, ⟨("hello world").data, [("hello").data, ("world").data], []⟩) :=
  (claim4_all_overlap_frame ⟨1, 5, 4⟩
      ⟨("hello world").data, [("hello").data, ("world").data], []⟩
      (("hello world").data) (by decide) (by decide) (by decide)).1 (by decide)

/-- Claim C5 (confirmed): on every accepted chunk the loop stores the full
pre-trim chunk text: `last_text` becomes the chunk text, `last_words` its
whitespace split, and the chunk text (not the trimmed output) is appended to
the context buffer; consequently, after any sequence of chunks, `last_text`
equals the text of the most recently accepted chunk (or its initial value if
none was accepted). -/
theorem claim5_accept_updates_state (config : TranscribeConfig) (st : StitcherState) :
    (∀ (text out : List Char) (st' : StitcherState),
        accept config st text = (some out, st') →
        st'.last_text = text ∧ st'.last_words = pyWords text ∧
        st'.context_buffer = pushContext config.max_context_chunks st.context_buffer text) ∧
    (∀ ts : List (List Char),
        (runChunks config st ts).last_text
          = ((acceptedTexts config st ts).getLast?).getD st.last_text) := by
  constructor
  · intro text out st' h
    rcases accept_cases config st text with ⟨h1, _⟩ | ⟨_, h2, h3, h4⟩
    · rw [h] at h1; exact absurd h1 (by simp)
    · rw [h] at h2 h3 h4
      exact ⟨h2, h3, h4⟩
  · exact fun ts => runChunks_last_text config ts st

theorem claim5_witness :
    ((accept ⟨1, 5, 4⟩ ⟨[], [], []⟩ ("good morning").data).2.last_text
        = ("good morning").data ∧
     (accept ⟨1, 5, 4⟩ ⟨[], [], []⟩ ("good morning").data).2.last_words
        = pyWords (("good morning").data) ∧
     (accept ⟨1, 5, 4⟩ ⟨[], [], []⟩ ("good morning").data).2.context_buffer
        = pushContext 4 [] (("good morning").data)) ∧
    (runChunks ⟨1, 5, 4⟩ ⟨[], [], []⟩ [("good morning").data]).last_text
      = ((acceptedTexts ⟨1, 5, 4⟩ ⟨[], [], []⟩ [("good morning").data]).getLast?).getD [] :=
  ⟨(claim5_accept_updates_state ⟨1, 5, 4⟩ ⟨[], [], []⟩).1 (("good morning").data)
      (("good morning").data) _ (by decide),
   (claim5_accept_updates_state ⟨1, 5, 4⟩ ⟨[], [], []⟩).2 [("good morning").data]⟩

/-! ## Context buffer eviction -/

theorem pushContext_foldl (m : Nat) :
    ∀ (ts : List (List Char)) (buf : List (List Char)), buf.length ≤ m →
      List.foldl (pushContext m) buf ts = (buf ++ ts).drop ((buf ++ ts).length - m) := by
  intro ts
  induction ts with
  | nil =>
    intro buf h
    simp [Nat.sub_eq_zero_of_le, h]
  | cons t ts ih =>
    intro buf h
    rw [List.foldl_cons]
    by_cases hb : (buf ++ [t]).length > m
    · have hbe : buf.length = m := by
        simp only [List.length_append, List.length_cons, List.length_nil] at hb
        omega
      have hp : pushContext m buf t = (buf ++ [t]).drop 1 := by
        simp only [pushContext]
        rw [if_pos hb]
      have h1 : ((buf ++ [t]).drop 1).length ≤ m := by
        simp only [List.length_drop, List.length_append, List.length_cons, List.length_nil]
        omega
      rw [hp, ih _ h1]
      have hsplit : (buf ++ [t]).drop 1 ++ ts = ((buf ++ [t]) ++ ts).drop 1 :=
        (List.drop_append_of_le_length
          (by simp only [List.length_append, List.length_cons, List.length_nil]; omega)).symm
      rw [hsplit, List.drop_drop]
      have hassoc : (buf ++ [t]) ++ ts = buf ++ t :: ts := by
        simp
      rw [hassoc]
      have hidx : 1 + (((buf ++ t :: ts).drop 1).length - m) = (buf ++ t :: ts).length - m := by
        simp only [List.length_drop, List.length_append, List.length_cons]
        omega
      rw [hidx]
    · have hp : pushContext m buf t = buf ++ [t] := by
        simp only [pushContext]
        rw [if_neg hb]
      have h1 : (buf ++ [t]).length ≤ m := by omega
      rw [hp, ih _ h1]
      have hassoc : (buf ++ [t]) ++ ts = buf ++ t :: ts := by
        simp
      rw [hassoc]

theorem runChunks_context_buffer (config : TranscribeConfig) :
    ∀ (ts : List (List Char)) (st : StitcherState),
      (runChunks config st ts).context_buffer
        = List.foldl (pushContext config.max_context_chunks) st.context_buffer
            (acceptedTexts config st ts) := by
  intro ts
  induction ts with
  | nil => intro st; rfl
  | cons t ts ih =>
    intro st
    rcases accept_cases config st t with ⟨h1, h2⟩ | ⟨h1, _, _, h4⟩
    · have hs : (accept config st t).1.isSome = false := by rw [h1]; rfl
      rw [runChunks, acceptedTexts, hs]
      simp only [Bool.false_eq_true, if_false]
      rw [ih, h2]
    · have hs : (accept config st t).1.isSome = true := by rw [h1]; rfl
      rw [runChunks, acceptedTexts, hs]
      simp only [if_true]
      rw [List.foldl_cons, ih, h4]

/-- Claim C8 (confirmed): starting from an empty context buffer, once more
than `max_context_chunks` chunks have been accepted the buffer holds exactly
`max_context_chunks` entries, namely the most recent accepted texts in
oldest-first order; each append past the bound drops exactly the oldest
(head) entry. -/
theorem claim8_context_buffer_bound (config : TranscribeConfig) (st : StitcherState)
    (ts : List (List Char)) (hinit : st.context_buffer = [])
    (hcount : config.max_context_chunks < (acceptedTexts config st ts).length) :
    (runChunks config st ts).context_buffer
        = (acceptedTexts config st ts).drop
            ((acceptedTexts config st ts).length - config.max_context_chunks) ∧
    (runChunks config st ts).context_buffer.length = config.max_context_chunks ∧
    (∀ (buf : List (List Char)) (t : List Char),
        buf.length = config.max_context_chunks → buf ≠ [] →
        pushContext config.max_context_chunks buf t = buf.drop 1 ++ [t]) := by
  refine ⟨?_, ?_, ?_⟩
  · rw [runChunks_context_buffer, hinit,
      pushContext_foldl config.max_context_chunks (acceptedTexts config st ts) [] (by simp)]
    simp
  · rw [runChunks_context_buffer, hinit,
      pushContext_foldl config.max_context_chunks (acceptedTexts config st ts) [] (by simp)]
    simp only [List.nil_append, List.length_drop]
    omega
  · intro buf t hlen hne
    simp only [pushContext]
    rw [if_pos (by simp [hlen]), List.drop_append_of_le_length (List.length_pos.mpr hne)]

theorem claim8_witness :
    (runChunks ⟨1, 5, 4⟩ ⟨[], [], []⟩
        [("one two").data, ("three four").data, ("five six").data,
         ("seven eight").data, ("nine ten").data]).context_buffer
      = (acceptedTexts ⟨1, 5, 4⟩ ⟨[], [], []⟩
          [("one two").data, ("three four").data, ("five six").data,
           ("seven eight").data, ("nine ten").data]).drop
          ((acceptedTexts ⟨1, 5, 4⟩ ⟨[], [], []⟩
            [("one two").data, ("three four").data, ("five six").data,
             ("seven eight").data, ("nine ten").data]).length - 4) ∧
    (runChunks ⟨1, 5, 4⟩ ⟨[], [], []⟩
        [("one two").data, ("three four").data, ("five six").data,
         ("seven eight").data, ("nine ten").data]).context_buffer.length = 4 :=
  ⟨(claim8_context_buffer_bound ⟨1, 5, 4⟩ ⟨[], [], []⟩
      [("one two").data, ("three four").data, ("five six").data,
       ("seven eight").data, ("nine ten").data] rfl (by decide)).1,
   (claim8_context_buffer_bound ⟨1, 5, 4⟩ ⟨[], [], []⟩
      [("one two").data, ("three four").data, ("five six").data,
       ("seven eight").data, ("nine ten").data] rfl (by decide)).2.1⟩

/-! ## Overlap trimming -/

theorem findOverlapCount_greatest (pw nw : List (List Char)) :
    ∀ m, isGreatestOverlap pw nw m (findOverlapCount pw nw m) := by
  intro m
  induction m with
  | zero =>
    exact Or.inl ⟨rfl, fun i h1 h2 => absurd (Nat.le_trans h1 h2) (by omega)⟩
  | succ m ih =>
    rw [findOverlapCount]
    by_cases h : pw.drop (pw.length - (m + 1)) = nw.take (m + 1)
    · rw [if_pos h]
      exact Or.inr ⟨Nat.succ_le_succ (Nat.zero_le m), Nat.le_refl _, h,
        fun i h1 h2 => absurd (Nat.lt_of_lt_of_le h1 h2) (Nat.lt_irrefl _)⟩
    · rw [if_neg h]
      rcases ih with ⟨h0, hall⟩ | ⟨h1, h2, h3, h4⟩
      · refine Or.inl ⟨h0, fun i hi1 hi2 => ?_⟩
        rcases Nat.lt_or_ge i (m + 1) with hlt | hge
        · exact hall i hi1 (Nat.lt_succ_iff.mp hlt)
        · have : i = m + 1 := Nat.le_antisymm hi2 hge
          subst this
          exact h
      · refine Or.inr ⟨h1, Nat.le_trans h2 (Nat.le_succ m), h3, fun i hi1 hi2 => ?_⟩
        rcases Nat.lt_or_ge i (m + 1) with hlt | hge
        · exact h4 i hi1 (Nat.lt_succ_iff.mp hlt)
        · have : i = m + 1 := Nat.le_antisymm hi2 hge
          subst this
          exact h

/-- Claim C1 (corrected): when the previous word list is non-empty,
`remove_overlap` drops exactly the first `c` words of the new text, where `c`
is the largest `i` in `[1, min(newWordCount, prevWordCount, overlapWords)]`
at which the last `i` previous words equal the first `i` new words (`c = 0`
when no `i` matches), and rejoins the rest with single spaces; when the
previous word list is empty the new text is returned verbatim, not rejoined.
In particular, for previous words `["see","you","later","today"]` and new
text `"later today we should leave"` with `overlapWords = 5` the result is
`"we should leave"`. -/
theorem claim1_remove_overlap_characterization (new_text : List Char)
    (previous_words : List (List Char)) (overlap_words : Nat) :
    (previous_words = [] → remove_overlap new_text previous_words overlap_words = new_text) ∧
    (previous_words ≠ [] → ∃ c,
        remove_overlap new_text previous_words overlap_words
          = unwords ((pyWords new_text).drop c) ∧
        isGreatestOverlap previous_words (pyWords new_text)
          (min (min (pyWords new_text).length previous_words.length) overlap_words) c) ∧
    remove_overlap ("later today we should leave").data
        [("see").data, ("you").data, ("later").data, ("today").data] 5
      = ("we should leave").data := by
  refine ⟨?_, ?_, by decide⟩
  · intro h
    subst h
    simp [remove_overlap]
  · intro h
    by_cases ht : new_text = []
    · subst ht
      refine ⟨0, by simp [remove_overlap, unwords, pyWords], Or.inl ⟨rfl, fun i h1 h2 => ?_⟩⟩
      have : (pyWords ([] : List Char)).length = 0 := by decide
      omega
    · have hp : previous_words.isEmpty = false := by simp [List.isEmpty_iff, h]
      have htn : new_text.isEmpty = false := by simp [List.isEmpty_iff, ht]
      refine ⟨findOverlapCount previous_words (pyWords new_text)
          (min (min (pyWords new_text).length previous_words.length) overlap_words), ?_,
        findOverlapCount_greatest previous_words (pyWords new_text) _⟩
      simp only [remove_overlap, hp, htn, Bool.or_self, Bool.false_eq_true, if_false]
      split
      · rfl
      · rename_i hcond
        rw [Nat.eq_zero_of_not_pos hcond, List.drop_zero]

/-- Claim C1 counterexample: with an empty previous word list the code
returns the new text verbatim, while the claim predicts the words rejoined
with single spaces (`overlapCount = 0` there, so the predicted result is
`unwords` of all words). -/
theorem claim1_counterexample :
    remove_overlap ("a  b").data [] 5 = ("a  b").data ∧
    unwords ((pyWords (("a  b").data)).drop 0) = ("a b").data ∧
    ("a  b").data ≠ ("a b").data := by
  decide

theorem claim1_witness :
    remove_overlap ("a b").data [] 5 = ("a b").data ∧
    (∃ c, remove_overlap ("later today we should leave").data
            [("see").data, ("you").data, ("later").data, ("today").data] 5
          = unwords ((pyWords (("later today we should leave").data)).drop c) ∧
        isGreatestOverlap [("see").data, ("you").data, ("later").data, ("today").data]
          (pyWords (("later today we should leave").data))
          (min (min (pyWords (("later today we should leave").data)).length 4) 5) c) :=
  ⟨(claim1_remove_overlap_characterization ("a b").data [] 5).1 rfl,
   (claim1_remove_overlap_characterization ("later today we should leave").data
      [("see").data, ("you").data, ("later").data, ("today").data] 5).2.1 (by decide)⟩

/-! ## Word splitting and rejoining -/

theorem splitOnP_sep_free (p : Char → Bool) :
    ∀ (l : List Char), ∀ w ∈ l.splitOnP p, ∀ c ∈ w, p c = false := by
  intro l
  induction l with
  | nil =>
    intro w hw c hc
    rw [List.splitOnP_nil] at hw
    rcases List.mem_cons.mp hw with h | h
    · subst h; simp at hc
    · simp at h
  | cons a l ih =>
    intro w hw c hc
    rw [List.splitOnP_cons] at hw
    by_cases ha : p a
    · rw [if_pos ha] at hw
      rcases List.mem_cons.mp hw with h | h
      · subst h; simp at hc
      · exact ih w h c hc
    · rw [if_neg ha] at hw
      rcases hsp : l.splitOnP p with _ | ⟨w₀, rest⟩
      · exact absurd hsp (List.splitOnP_ne_nil p l)
      · rw [hsp] at hw
        simp only [List.modifyHead] at hw
        rcases List.mem_cons.mp hw with h | h
        · subst h
          rcases List.mem_cons.mp hc with h' | h'
          · subst h'
            cases hpa : p c
            · rfl
            · exact absurd hpa ha
          · refine ih w₀ ?_ c h'
            rw [hsp]
            exact List.mem_cons_self w₀ rest
        · refine ih w ?_ c hc
          rw [hsp]
          exact List.mem_cons_of_mem w₀ h

theorem pyWords_good (l : List Char) :
    ∀ w ∈ pyWords l, w ≠ [] ∧ ∀ c ∈ w, isPySpace c = false := by
  intro w hw
  unfold pyWords at hw
  rw [List.mem_filter] at hw
  refine ⟨?_, fun c hc => splitOnP_sep_free isPySpace l w hw.1 c hc⟩
  have := hw.2
  simp only [Bool.not_eq_true'] at this
  simpa [List.isEmpty_iff] using this

theorem pyWords_unwords :
    ∀ ws : List (List Char), (∀ w ∈ ws, w ≠ [] ∧ ∀ c ∈ w, isPySpace c = false) →
      pyWords (unwords ws) = ws := by
  intro ws
  induction ws with
  | nil => intro _; rfl
  | cons w ws ih =>
    intro h
    have hw := h w (List.mem_cons_self w ws)
    have hwfree : ∀ c ∈ w, ¬ isPySpace c := fun c hc => by simp [hw.2 c hc]
    cases ws with
    | nil =>
      unfold pyWords
      rw [show unwords [w] = w from rfl]
      rw [List.splitOnP_eq_single _ _ hwfree, List.filter_cons,
        if_pos (by simp [List.isEmpty_iff, hw.1])]
      rfl
    | cons v vs =>
      have hrest : ∀ u ∈ v :: vs, u ≠ [] ∧ ∀ c ∈ u, isPySpace c = false :=
        fun u hu => h u (List.mem_cons_of_mem w hu)
      unfold pyWords
      rw [show unwords (w :: v :: vs) = w ++ ' ' :: unwords (v :: vs) from rfl]
      rw [List.splitOnP_first _ _ hwfree ' ' (by decide) (unwords (v :: vs))]
      rw [List.filter_cons, if_pos (by simp [List.isEmpty_iff, hw.1])]
      have := ih hrest
      unfold pyWords at this
      rw [this]

/-- Claim C2 (confirmed): `is_repetition` returns true exactly when both texts
are non-empty, the lower-cased word-split new text has at least 3 words, and
strictly more than 7/10 of those words occur among the last
`min(prevWordCount, 10)` lower-cased previous words (counted with
multiplicity over the new text's words); equality with the 0.7 threshold is
not a repetition. -/
theorem claim2_is_repetition_iff (new_text previous_text : List Char) :
    is_repetition new_text previous_text = true ↔
      (new_text ≠ [] ∧ previous_text ≠ [] ∧
        3 ≤ (pyWords (pyLower new_text)).length ∧
        7 * (pyWords (pyLower new_text)).length
          < 10 * ((pyWords (pyLower new_text)).filter
              (fun w => decide (w ∈
                (pyWords (pyLower previous_text)).drop
                  ((pyWords (pyLower previous_text)).length
                    - min (pyWords (pyLower previous_text)).length 10)))).length) := by
  by_cases h1 : previous_text.isEmpty
  · rw [List.isEmpty_iff] at h1
    subst h1
    simp [is_repetition]
  · by_cases h2 : new_text.isEmpty
    · rw [List.isEmpty_iff] at h2
      subst h2
      simp [is_repetition]
    · have h1' : previous_text ≠ [] := by simpa [List.isEmpty_iff] using h1
      have h2' : new_text ≠ [] := by simpa [List.isEmpty_iff] using h2
      have h1b : previous_text.isEmpty = false := by simpa [List.isEmpty_iff] using h1
      have h2b : new_text.isEmpty = false := by simpa [List.isEmpty_iff] using h2
      have hgood : ∀ u ∈ (pyWords (pyLower previous_text)).drop
          ((pyWords (pyLower previous_text)).length
            - min (pyWords (pyLower previous_text)).length 10),
          u ≠ [] ∧ ∀ c ∈ u, isPySpace c = false :=
        fun u hu => pyWords_good (pyLower previous_text) u (List.mem_of_mem_drop hu)
      have hwin := pyWords_unwords _ hgood
      simp only [is_repetition, h1b, h2b, Bool.or_self, Bool.false_eq_true, if_false]
      by_cases h3 : (pyWords (pyLower new_text)).length < 3
      · rw [if_pos h3]
        constructor
        · intro hfalse
          exact absurd hfalse (by simp)
        · intro hr
          omega
      · rw [if_neg h3, hwin]
        rw [decide_eq_true_iff]
        constructor
        · intro hgt
          exact ⟨h2', h1', by omega, hgt⟩
        · intro hr
          exact hr.2.2.2

/-! ## Whitespace normalization -/

theorem head?_dropWhile (q : Char → Bool) (l : List Char) (a : Char)
    (h : (l.dropWhile q).head? = some a) : q a = false := by
  have := List.head?_dropWhile_not q l
  rw [h] at this
  exact this

theorem dropWhile_head_self (q : Char → Bool) (l : List Char) (a : Char)
    (h : l.head? = some a) (ha : q a = false) : l.dropWhile q = l := by
  cases l with
  | nil => rfl
  | cons b t =>
    rw [List.head?_cons] at h
    injection h with h
    subst h
    rw [List.dropWhile_cons_of_neg (by simp [ha])]

theorem getLast?_dropWhile (q : Char → Bool) :
    ∀ l : List Char, l.dropWhile q ≠ [] → (l.dropWhile q).getLast? = l.getLast? := by
  intro l
  induction l with
  | nil => intro h; exact absurd rfl h
  | cons a t ih =>
    intro h
    by_cases ha : q a
    · rw [List.dropWhile_cons_of_pos ha] at h ⊢
      have ht : t ≠ [] := by
        intro he
        subst he
        exact h rfl
      rw [ih h]
      cases t with
      | nil => exact absurd rfl ht
      | cons b u => rw [List.getLast?_cons_cons]
    · rw [List.dropWhile_cons_of_neg ha]

theorem pyStrip_idem (l : List Char) : pyStrip (pyStrip l) = pyStrip l := by
  by_cases hs : pyStrip l = []
  · rw [hs]
    rfl
  · have hvne : ((l.dropWhile isPySpace).reverse.dropWhile isPySpace) ≠ [] := by
      intro h
      apply hs
      unfold pyStrip
      rw [h]
      rfl
    have hune : l.dropWhile isPySpace ≠ [] := by
      intro h
      apply hvne
      rw [h]
      rfl
    obtain ⟨b, hub⟩ : ∃ b, (l.dropWhile isPySpace).head? = some b := by
      cases hu : l.dropWhile isPySpace with
      | nil => exact absurd hu hune
      | cons x xs => exact ⟨x, rfl⟩
    have hqb : isPySpace b = false := head?_dropWhile isPySpace l b hub
    obtain ⟨a, hva⟩ : ∃ a,
        ((l.dropWhile isPySpace).reverse.dropWhile isPySpace).head? = some a := by
      cases hv : (l.dropWhile isPySpace).reverse.dropWhile isPySpace with
      | nil => exact absurd hv hvne
      | cons x xs => exact ⟨x, rfl⟩
    have hqa : isPySpace a = false := head?_dropWhile isPySpace _ a hva
    have hgl : ((l.dropWhile isPySpace).reverse.dropWhile isPySpace).getLast? = some b := by
      rw [getLast?_dropWhile isPySpace _ hvne, List.getLast?_reverse]
      exact hub
    have step1 : (((l.dropWhile isPySpace).reverse.dropWhile isPySpace).reverse).dropWhile isPySpace
        = ((l.dropWhile isPySpace).reverse.dropWhile isPySpace).reverse :=
      dropWhile_head_self isPySpace _ b (by rw [List.head?_reverse]; exact hgl) hqb
    have step2 : ((l.dropWhile isPySpace).reverse.dropWhile isPySpace).dropWhile isPySpace
        = (l.dropWhile isPySpace).reverse.dropWhile isPySpace :=
      dropWhile_head_self isPySpace _ a hva hqa
    show (((((l.dropWhile isPySpace).reverse.dropWhile isPySpace).reverse).dropWhile
        isPySpace).reverse.dropWhile isPySpace).reverse
      = ((l.dropWhile isPySpace).reverse.dropWhile isPySpace).reverse
    rw [step1, List.reverse_reverse, step2]

theorem collapseWs_cons (c : Char) (cs : List Char) (h : isPySpace c = false) :
    collapseWs (c :: cs) = c :: collapseWs cs := by
  cases cs with
  | nil => simp [collapseWs, h]
  | cons d ds => simp [collapseWs, h]

theorem collapseWs_wsCollapsed : ∀ l : List Char, WsCollapsed (collapseWs l) := by
  intro l
  induction l using collapseWs.induct with
  | case1 =>
    refine ⟨List.chain'_nil, ?_⟩
    intro c hc
    rw [collapseWs] at hc
    cases hc
  | case2 c hc =>
    refine ⟨?_, ?_⟩
    · rw [collapseWs, if_pos hc]
      exact List.chain'_singleton ' '
    · rw [collapseWs, if_pos hc]
      intro d hd _
      simpa using hd
  | case3 c hc =>
    refine ⟨?_, ?_⟩
    · rw [collapseWs, if_neg hc]
      exact List.chain'_singleton c
    · rw [collapseWs, if_neg hc]
      intro d hd hdw
      rw [List.mem_singleton] at hd
      subst hd
      exact absurd hdw hc
  | case4 c₁ c₂ cs h1 h2 ih =>
    rw [collapseWs, if_pos h1, if_pos h2]
    exact ih
  | case5 c₁ c₂ cs h1 h2 ih =>
    rw [collapseWs, if_pos h1, if_neg h2]
    have h2' : isPySpace c₂ = false := by
      cases hx : isPySpace c₂
      · rfl
      · exact absurd hx h2
    rw [collapseWs_cons c₂ cs h2'] at ih
    refine ⟨?_, ?_⟩
    · rw [collapseWs_cons c₂ cs h2']
      exact List.chain'_cons.mpr ⟨fun hcontra => h2 hcontra.2, ih.1⟩
    · rw [collapseWs_cons c₂ cs h2']
      intro d hd hdw
      rcases List.mem_cons.mp hd with h | h
      · exact h
      · exact ih.2 d h hdw
  | case6 c₁ c₂ cs h1 ih =>
    rw [collapseWs, if_neg h1]
    refine ⟨?_, ?_⟩
    · exact List.chain'_cons'.mpr ⟨fun y _ hcontra => h1 hcontra.1, ih.1⟩
    · intro d hd hdw
      rcases List.mem_cons.mp hd with h | h
      · subst h
        exact absurd hdw h1
      · exact ih.2 d h hdw

theorem collapseWs_id : ∀ l : List Char, WsCollapsed l → collapseWs l = l := by
  intro l
  induction l using collapseWs.induct with
  | case1 => intro _; rfl
  | case2 c hc =>
    intro h
    rw [collapseWs, if_pos hc, h.2 c (List.mem_singleton_self c) hc]
  | case3 c hc =>
    intro _
    rw [collapseWs, if_neg hc]
  | case4 c₁ c₂ cs h1 h2 ih =>
    intro h
    exact absurd ⟨h1, h2⟩ (List.chain'_cons.mp h.1).1
  | case5 c₁ c₂ cs h1 h2 ih =>
    intro h
    rw [collapseWs, if_pos h1, if_neg h2]
    have htail : WsCollapsed (c₂ :: cs) :=
      ⟨(List.chain'_cons.mp h.1).2, fun d hd => h.2 d (List.mem_cons_of_mem c₁ hd)⟩
    rw [ih htail, h.2 c₁ (List.mem_cons_self c₁ (c₂ :: cs)) h1]
  | case6 c₁ c₂ cs h1 ih =>
    intro h
    rw [collapseWs, if_neg h1]
    have htail : WsCollapsed (c₂ :: cs) :=
      ⟨(List.chain'_cons.mp h.1).2, fun d hd => h.2 d (List.mem_cons_of_mem c₁ hd)⟩
    rw [ih htail]

theorem wsCollapsed_dropWhile (q : Char → Bool) (l : List Char) (h : WsCollapsed l) :
    WsCollapsed (l.dropWhile q) :=
  ⟨h.1.suffix (List.dropWhile_suffix q),
   fun c hc => h.2 c ((List.dropWhile_suffix q).subset hc)⟩

theorem wsCollapsed_reverse (l : List Char) (h : WsCollapsed l) :
    WsCollapsed l.reverse := by
  refine ⟨?_, fun c hc => h.2 c (List.mem_reverse.mp hc)⟩
  rw [List.chain'_reverse]
  exact h.1.imp (fun a b hab hcontra => hab ⟨hcontra.2, hcontra.1⟩)

theorem wsCollapsed_pyStrip (l : List Char) (h : WsCollapsed l) :
    WsCollapsed (pyStrip l) :=
  wsCollapsed_reverse _
    (wsCollapsed_dropWhile _ _ (wsCollapsed_reverse _ (wsCollapsed_dropWhile _ _ h)))

/-- Claim C9 (confirmed): `normalize_whitespace` is idempotent, so applying it
to already-normalized text returns the text unchanged. -/
theorem claim9_normalize_idempotent (t : List Char) :
    normalize_whitespace (normalize_whitespace t) = normalize_whitespace t := by
  show pyStrip (collapseWs (pyStrip (collapseWs t))) = pyStrip (collapseWs t)
  rw [collapseWs_id _ (wsCollapsed_pyStrip _ (collapseWs_wsCollapsed t))]
  exact pyStrip_idem _

/-! ## Sentence-continuation buffering -/

theorem endsTerminal_eq_hasTerminal (l : List Char) :
    (!l.isEmpty &&
      (match l.getLast? with
       | some c => terminal_punctuation.contains c
       | none => false)) = endsTerminal l := by
  cases hl : l.getLast? with
  | none =>
    have h0 : l = [] := List.getLast?_eq_none_iff.mp hl
    subst h0
    rfl
  | some c =>
    have hne : l ≠ [] := by
      intro h0
      subst h0
      simp at hl
    have hie : l.isEmpty = false := by simpa [List.isEmpty_iff] using hne
    simp [endsTerminal, hl, hie]

theorem process_transcription_terminal (st : ContextTracker) (t : List Char)
    (ht : t ≠ []) (hterm : endsTerminal (pyStrip t) = true) :
    process_transcription st t
      = ((if st.incomplete_buffer.isEmpty then t else st.incomplete_buffer ++ ' ' :: t,
          !st.incomplete_buffer.isEmpty), ⟨[]⟩) := by
  have hie : t.isEmpty = false := by simpa [List.isEmpty_iff] using ht
  simp only [process_transcription, hie, Bool.false_eq_true, if_false,
    endsTerminal_eq_hasTerminal, hterm, if_true]

theorem process_transcription_continue (st : ContextTracker) (t : List Char)
    (ht : t ≠ []) (hterm : endsTerminal (pyStrip t) = false) :
    process_transcription st t
      = (((if st.incomplete_buffer.isEmpty then t else st.incomplete_buffer ++ ' ' :: t)
            ++ ['.', '.', '.'],
          !st.incomplete_buffer.isEmpty),
         ⟨if st.incomplete_buffer.isEmpty then t else st.incomplete_buffer ++ ' ' :: t⟩) := by
  have hie : t.isEmpty = false := by simpa [List.isEmpty_iff] using ht
  simp only [process_transcription, hie, Bool.false_eq_true, if_false,
    endsTerminal_eq_hasTerminal, hterm]

theorem normalized_pyStrip (t : List Char) (h : normalize_whitespace t = t) :
    pyStrip t = t := by
  conv_lhs => rw [← h]
  show pyStrip (pyStrip (collapseWs t)) = t
  rw [pyStrip_idem]
  exact h

theorem normalized_getLast_not_ws (t : List Char) (h : pyStrip t = t) (c : Char)
    (hc : t.getLast? = some c) : isPySpace c = false := by
  have ht : t.reverse = (t.dropWhile isPySpace).reverse.dropWhile isPySpace := by
    conv_lhs => rw [← h]
    show (((t.dropWhile isPySpace).reverse.dropWhile isPySpace).reverse).reverse = _
    rw [List.reverse_reverse]
  have hrev : ((t.dropWhile isPySpace).reverse.dropWhile isPySpace).head? = some c := by
    rw [← ht, List.head?_reverse]
    exact hc
  exact head?_dropWhile isPySpace _ c hrev

theorem getLast?_pyStrip (l : List Char) (c : Char) (hc : l.getLast? = some c)
    (hws : isPySpace c = false) : (pyStrip l).getLast? = some c := by
  have hcl : c ∈ l := List.mem_of_mem_getLast? hc
  have hune : l.dropWhile isPySpace ≠ [] := by
    intro h0
    have hall := List.dropWhile_eq_nil_iff.mp h0
    have := hall c hcl
    rw [hws] at this
    cases this
  have h1 : (l.dropWhile isPySpace).getLast? = some c := by
    rw [getLast?_dropWhile isPySpace l hune]
    exact hc
  have h3 : (l.dropWhile isPySpace).reverse.dropWhile isPySpace
      = (l.dropWhile isPySpace).reverse :=
    dropWhile_head_self isPySpace _ c (by rw [List.head?_reverse]; exact h1) hws
  show (((l.dropWhile isPySpace).reverse.dropWhile isPySpace).reverse).getLast? = some c
  rw [h3, List.reverse_reverse]
  exact h1

theorem process_preserve (st : ContextTracker) (t : List Char)
    (hn : normalize_whitespace t = t)
    (hP : st.incomplete_buffer = [] ∨ endsTerminal (pyStrip st.incomplete_buffer) = false) :
    ((process_transcription st t).2.incomplete_buffer = [] ∨
      endsTerminal (pyStrip (process_transcription st t).2.incomplete_buffer) = false) := by
  by_cases ht : t = []
  · subst ht
    exact hP
  · rcases Bool.eq_false_or_eq_true (endsTerminal (pyStrip t)) with hterm | hterm
    · left
      rw [process_transcription_terminal st t ht hterm]
    · right
      rw [process_transcription_continue st t ht hterm]
      have hstrip : pyStrip t = t := normalized_pyStrip t hn
      obtain ⟨c, hc⟩ : ∃ c, t.getLast? = some c :=
        Option.isSome_iff_exists.mp (List.getLast?_isSome.mpr ht)
      have hcw : isPySpace c = false := normalized_getLast_not_ws t hstrip c hc
      have hcterm : terminal_punctuation.contains c = false := by
        rw [hstrip] at hterm
        unfold endsTerminal at hterm
        rw [hc] at hterm
        exact hterm
      by_cases hb : st.incomplete_buffer.isEmpty = true
      · rw [if_pos hb, hstrip]
        unfold endsTerminal
        rw [hc]
        exact hcterm
      · rw [if_neg hb]
        have hfl : (st.incomplete_buffer ++ ' ' :: t).getLast? = some c := by
          rw [List.getLast?_append]
          have h2 : (' ' :: t).getLast? = some c := by
            cases t with
            | nil => exact absurd rfl ht
            | cons a u =>
              rw [List.getLast?_cons_cons]
              exact hc
          rw [h2]
          rfl
        have hgl := getLast?_pyStrip _ c hfl hcw
        unfold endsTerminal
        rw [hgl]
        exact hcterm

theorem runTracker_preserve :
    ∀ (ts : List (List Char)) (st : ContextTracker),
      (∀ t ∈ ts, normalize_whitespace t = t) →
      (st.incomplete_buffer = [] ∨ endsTerminal (pyStrip st.incomplete_buffer) = false) →
      ((runTracker st ts).incomplete_buffer = [] ∨
        endsTerminal (pyStrip (runTracker st ts).incomplete_buffer) = false) := by
  intro ts
  induction ts with
  | nil => intro st _ hP; exact hP
  | cons t ts ih =>
    intro st hn hP
    rw [runTracker]
    exact ih _ (fun u hu => hn u (List.mem_cons_of_mem t hu))
      (process_preserve st t (hn t (List.mem_cons_self t ts)) hP)

/-- Claim C3 (corrected): for every state and non-empty chunk text,
`isContinuation` is true iff the buffer was non-empty and `fullText` is the
buffer plus one space plus the text (else the text itself); but the terminal
check is made on the chunk text stripped of surrounding whitespace, not on
the raw text as the claim states: if the stripped text is non-empty and ends
with '.', '!' or '?' the buffer is cleared and displayText = fullText,
otherwise the buffer becomes fullText (without ellipsis) and displayText =
fullText + "...".  The claim's worked two-call example holds. -/
theorem claim3_process_transcription (st : ContextTracker) (t : List Char) (ht : t ≠ []) :
    ((process_transcription st t).1.2 = true ↔ st.incomplete_buffer ≠ []) ∧
    (∀ c, (pyStrip t).getLast? = some c → c ∈ terminal_punctuation →
      (process_transcription st t).1.1
          = (if st.incomplete_buffer.isEmpty then t else st.incomplete_buffer ++ ' ' :: t) ∧
      (process_transcription st t).2.incomplete_buffer = []) ∧
    ((∀ c, (pyStrip t).getLast? = some c → c ∉ terminal_punctuation) →
      (process_transcription st t).1.1
          = (if st.incomplete_buffer.isEmpty then t else st.incomplete_buffer ++ ' ' :: t)
            ++ ['.', '.', '.'] ∧
      (process_transcription st t).2.incomplete_buffer
          = (if st.incomplete_buffer.isEmpty then t else st.incomplete_buffer ++ ' ' :: t)) ∧
    process_transcription ⟨[]⟩ ("I went to the store and").data
        = ((("I went to the store and...").data, false), ⟨("I went to the store and").data⟩) ∧
    process_transcription ⟨("I went to the store and").data⟩ ("bought some milk.").data
        = ((("I went to the store and bought some milk.").data, true), ⟨[]⟩) := by
  refine ⟨?_, ?_, ?_, by decide, by decide⟩
  · rcases Bool.eq_false_or_eq_true (endsTerminal (pyStrip t)) with hterm | hterm
    · rw [process_transcription_terminal st t ht hterm]
      simp [List.isEmpty_iff]
    · rw [process_transcription_continue st t ht hterm]
      simp [List.isEmpty_iff]
  · intro c hc hmem
    have hterm : endsTerminal (pyStrip t) = true := by
      unfold endsTerminal
      rw [hc]
      exact List.elem_iff.mpr hmem
    rw [process_transcription_terminal st t ht hterm]
    exact ⟨rfl, rfl⟩
  · intro hall
    have hterm : endsTerminal (pyStrip t) = false := by
      unfold endsTerminal
      cases hg : (pyStrip t).getLast? with
      | none => rfl
      | some c =>
        show terminal_punctuation.contains c = false
        cases hcont : terminal_punctuation.contains c
        · rfl
        · exact absurd (List.elem_iff.mp hcont) (hall c hg)
    rw [process_transcription_continue st t ht hterm]
    exact ⟨rfl, rfl⟩

/-- Claim C3 counterexample: the chunk text `"hi. "` does not end with
terminal punctuation (its last character is a space), so the claim as stated
predicts buffering with an appended ellipsis; the code instead strips the
text first, sees the `'.'`, clears the buffer and displays the text without
ellipsis. -/
theorem claim3_counterexample :
    ("hi. ").data.getLast? = some ' ' ∧
    (' ' ∈ terminal_punctuation) = False ∧
    process_transcription ⟨[]⟩ (("hi. ").data) = ((("hi. ").data, false), ⟨[]⟩) ∧
    process_transcription ⟨[]⟩ (("hi. ").data)
      ≠ ((("hi. ").data ++ ['.', '.', '.'], false), ⟨("hi. ").data⟩) := by
  refine ⟨by decide, by decide, by decide, by decide⟩

theorem claim3_witness :
    (process_transcription ⟨[]⟩ (("ok then").data)).1.2 = true ↔
      (ContextTracker.mk []).incomplete_buffer ≠ [] :=
  (claim3_process_transcription ⟨[]⟩ (("ok then").data) (by decide)).1

/-- Claim C10 (confirmed): starting from a fresh tracker and feeding
whitespace-normalized texts, after every call the incomplete buffer is empty
or its stripped form does not end in terminal punctuation; a chunk ending in
terminal punctuation always clears the buffer; an empty text returns
`("", False)` and leaves the tracker unchanged. -/
theorem claim10_tracker_invariant (ts : List (List Char))
    (h : ∀ t ∈ ts, normalize_whitespace t = t) :
    (∀ n : Nat,
      (runTracker ContextTracker.init (ts.take n)).incomplete_buffer = [] ∨
      endsTerminal
          (pyStrip (runTracker ContextTracker.init (ts.take n)).incomplete_buffer)
        = false) ∧
    (∀ (st : ContextTracker) (t : List Char) (c : Char),
        normalize_whitespace t = t → t.getLast? = some c → c ∈ terminal_punctuation →
        (process_transcription st t).2.incomplete_buffer = []) ∧
    (∀ st : ContextTracker, process_transcription st [] = (([], false), st)) := by
  refine ⟨?_, ?_, ?_⟩
  · intro n
    exact runTracker_preserve (ts.take n) ContextTracker.init
      (fun u hu => h u (List.mem_of_mem_take hu)) (Or.inl rfl)
  · intro st t c hn hc hmem
    have ht : t ≠ [] := by
      intro h0
      subst h0
      simp at hc
    have hstrip : pyStrip t = t := normalized_pyStrip t hn
    have hterm : endsTerminal (pyStrip t) = true := by
      rw [hstrip]
      unfold endsTerminal
      rw [hc]
      exact List.elem_iff.mpr hmem
    rw [process_transcription_terminal st t ht hterm]
  · intro st
    rfl

theorem claim10_witness :
    ((runTracker ContextTracker.init
        ([("hello there.").data, ("and then").data].take 2)).incomplete_buffer = [] ∨
      endsTerminal (pyStrip (runTracker ContextTracker.init
        ([("hello there.").data, ("and then").data].take 2)).incomplete_buffer) = false) ∧
    process_transcription ⟨("x").data⟩ [] = (([], false), ⟨("x").data⟩) :=
  ⟨(claim10_tracker_invariant [("hello there.").data, ("and then").data] (by decide)).1 2,
   (claim10_tracker_invariant [("hello there.").data, ("and then").data] (by decide)).2.2
     ⟨("x").data⟩⟩

end SBC
